import Mathlib

/-!
Verification of the sda-cli specification against the repository source.

The file shallowly embeds the relevant parts of the program:

* the ChunkCodec (fixed-block authenticated encryption container), the
  PartPlanner and the error taxonomy are modelled from the specification,
  since the encrypt/decrypt and transfer modules are not in the source tree;
* `CustomReader.ReadAt`, `LoadConfigFile` and `ListFiles` are translated
  from `helpers/helpers.go`;
* the top level error reporting of `main` is translated from the main module.

Go strings are modelled as `List Char`, Go `int64` as `Int`, bytes as
`Fin 256`, maps used as sets as lists of keys, and fallible functions as
`Except`.
-/

namespace SdaCli

/-! ### ChunkCodec

Modelled from the spec: the streaming authenticated-encryption container.
The encoder reads plaintext in fixed block-size windows, encrypts each
window under the session data key, appends an authentication tag and emits
the block with its sequence index; the decoder processes blocks in order,
verifies the sequence index and the tag, and aborts with `IntegrityError`
on any mismatch, emitting no plaintext at all in that case. The concrete
per-byte cipher and the tag function are toy stand-ins: the claims under
verification depend only on the block structure, not on the cryptographic
primitives, which the spec declares out of scope.
-/

/-- A byte, as used by the codec model. -/
abbrev Byte := Fin 256

/-- Modelled from the spec: the fixed block size of the container format. -/
def blockSize : Nat := 65536

/-- Modelled from the spec: one fixed-size authenticated encryption unit,
with its sequence index, ciphertext bytes and authentication tag. -/
structure CipherBlock where
  seq : Nat
  ct : List Byte
  tag : Byte
deriving DecidableEq, Repr

/-- Modelled from the spec: errors of the codec. -/
inductive CodecError where
  | KeyUnsealError
  | IntegrityError
deriving DecidableEq, Repr

/-- Encryption of a single byte under the session data key. -/
def encryptByte (k b : Byte) : Byte := b + k

/-- Decryption of a single byte under the session data key. -/
def decryptByte (k c : Byte) : Byte := c - k

/-- Modelled from the spec: the per-block authentication tag, computed from
the ciphertext under the session data key. -/
def blockTag (k : Byte) (ct : List Byte) : Byte := ct.sum + k

/-- Modelled from the spec: the encoder loop. `fuel` bounds the recursion
(one block consumes at least one plaintext byte), `i` is the sequence index
of the next block. -/
def encodeGo (k : Byte) : Nat → Nat → List Byte → List CipherBlock
  | _, _, [] => []
  | 0, _, _ => []
  | fuel + 1, i, x :: rest =>
    let c := ((x :: rest).take blockSize).map (encryptByte k)
    ⟨i, c, blockTag k c⟩ :: encodeGo k fuel (i + 1) ((x :: rest).drop blockSize)

/-- Modelled from the spec: `openEncoder`, producing the sequence of cipher
blocks of a plaintext. -/
def encode (k : Byte) (xs : List Byte) : List CipherBlock :=
  encodeGo k xs.length 0 xs

/-- Modelled from the spec: decoding of one block at expected sequence
index `i`: the sequence index and the authentication tag are verified, a
mismatch is an `IntegrityError`. -/
def decodeBlock (k : Byte) (i : Nat) (b : CipherBlock) : Except CodecError (List Byte) :=
  if b.seq = i then
    if blockTag k b.ct = b.tag then
      Except.ok (b.ct.map (decryptByte k))
    else
      Except.error CodecError.IntegrityError
  else
    Except.error CodecError.IntegrityError

/-- Modelled from the spec: the decoder loop at expected sequence index
`i`; any block failure aborts the whole decode with no plaintext output. -/
def decodeFrom (k : Byte) : Nat → List CipherBlock → Except CodecError (List Byte)
  | _, [] => Except.ok []
  | i, b :: rest =>
    match decodeBlock k i b with
    | Except.error e => Except.error e
    | Except.ok p =>
      match decodeFrom k (i + 1) rest with
      | Except.error e => Except.error e
      | Except.ok ps => Except.ok (p ++ ps)

/-- Modelled from the spec: `openDecoder`, decoding a block sequence
starting at sequence index 0. -/
def decode (k : Byte) (bs : List CipherBlock) : Except CodecError (List Byte) :=
  decodeFrom k 0 bs

/-- Replacing the authentication tag of the block at position `i` of a
block sequence. -/
def tamperTag : List CipherBlock → Nat → Byte → List CipherBlock
  | [], _, _ => []
  | b :: bs, 0, t => { b with tag := t } :: bs
  | b :: bs, i + 1, t => b :: tamperTag bs i t

lemma decryptByte_encryptByte (k b : Byte) : decryptByte k (encryptByte k b) = b := by
  simp [decryptByte, encryptByte]

lemma map_decrypt_encrypt (k : Byte) (w : List Byte) :
    (w.map (encryptByte k)).map (decryptByte k) = w := by
  rw [List.map_map]
  have h : decryptByte k ∘ encryptByte k = id := funext fun b => decryptByte_encryptByte k b
  rw [h, List.map_id]

lemma decodeBlock_mk (k : Byte) (i : Nat) (c : List Byte) :
    decodeBlock k i ⟨i, c, blockTag k c⟩ = Except.ok (c.map (decryptByte k)) := by
  simp [decodeBlock]

/-- Decoding at the matching start index inverts the encoder loop. -/
lemma decodeFrom_encodeGo (k : Byte) :
    ∀ (fuel : Nat) (xs : List Byte), xs.length ≤ fuel →
      ∀ i, decodeFrom k i (encodeGo k fuel i xs) = Except.ok xs := by
  intro fuel
  induction fuel with
  | zero =>
    intro xs hlen i
    have hxs : xs = [] := List.eq_nil_of_length_eq_zero (Nat.le_zero.mp hlen)
    subst hxs
    rfl
  | succ fuel ih =>
    intro xs hlen i
    cases xs with
    | nil => rfl
    | cons x rest =>
      have hdec : decodeBlock k i
          ⟨i, ((x :: rest).take blockSize).map (encryptByte k),
            blockTag k (((x :: rest).take blockSize).map (encryptByte k))⟩ =
          Except.ok ((x :: rest).take blockSize) := by
        rw [decodeBlock_mk, map_decrypt_encrypt]
      have hrest : ((x :: rest).drop blockSize).length ≤ fuel := by
        simp only [List.length_drop, List.length_cons, blockSize] at hlen ⊢
        omega
      calc decodeFrom k i (encodeGo k (fuel + 1) i (x :: rest))
          = decodeFrom k i
              (⟨i, ((x :: rest).take blockSize).map (encryptByte k),
                blockTag k (((x :: rest).take blockSize).map (encryptByte k))⟩ ::
                encodeGo k fuel (i + 1) ((x :: rest).drop blockSize)) := rfl
        _ = Except.ok ((x :: rest).take blockSize ++ (x :: rest).drop blockSize) := by
            rw [decodeFrom, hdec, ih ((x :: rest).drop blockSize) hrest (i + 1)]
        _ = Except.ok (x :: rest) := by rw [List.take_append_drop]

/-- C2: decoding the encoding of any plaintext yields the plaintext back,
for every input size, the final block being allowed to be shorter than the
fixed block size. -/
theorem decode_encode_roundtrip (k : Byte) (xs : List Byte) :
    decode k (encode k xs) = Except.ok xs :=
  decodeFrom_encodeGo k xs.length xs (Nat.le_refl _) 0

/-- A tampered tag at position `i` of a decodable block sequence turns the
whole decode into an `IntegrityError`. -/
lemma tamper_decodeFrom_fails (k : Byte) :
    ∀ (bs : List CipherBlock) (j : Nat) (ps : List Byte),
      decodeFrom k j bs = Except.ok ps →
      ∀ (i : Nat) (hi : i < bs.length) (t : Byte),
        t ≠ (bs.get ⟨i, hi⟩).tag →
        decodeFrom k j (tamperTag bs i t) = Except.error CodecError.IntegrityError := by
  intro bs
  induction bs with
  | nil =>
    intro j ps _ i hi
    exact absurd hi (by simp)
  | cons b rest ih =>
    intro j ps hok i hi t ht
    cases hd : decodeBlock k j b with
    | error e =>
      simp only [decodeFrom, hd] at hok
      exact Except.noConfusion hok
    | ok p =>
      cases hr : decodeFrom k (j + 1) rest with
      | error e =>
        simp only [decodeFrom, hd, hr] at hok
        exact Except.noConfusion hok
      | ok ps2 =>
        have hseq : b.seq = j := by
          by_contra hne
          simp only [decodeBlock, if_neg hne] at hd
          exact Except.noConfusion hd
        have htag : blockTag k b.ct = b.tag := by
          by_contra hne
          simp only [decodeBlock, if_pos hseq, if_neg hne] at hd
          exact Except.noConfusion hd
        cases i with
        | zero =>
          have htb : t ≠ b.tag := ht
          have hd2 : decodeBlock k j ({ b with tag := t } : CipherBlock) =
              Except.error CodecError.IntegrityError := by
            have hne : ¬ blockTag k b.ct = t := fun he => htb ((htag.symm.trans he).symm)
            simp only [decodeBlock, if_pos hseq, if_neg hne]
          simp only [tamperTag, decodeFrom, hd2]
        | succ i2 =>
          have hi2 : i2 < rest.length := by
            simp only [List.length_cons] at hi
            omega
          have ht2 : t ≠ (rest.get ⟨i2, hi2⟩).tag := ht
          have herr : decodeFrom k (j + 1) (tamperTag rest i2 t) =
              Except.error CodecError.IntegrityError :=
            ih (j + 1) ps2 hr i2 hi2 t ht2
          simp only [tamperTag, decodeFrom, hd, herr]

/-- C3: tampering with the authentication tag of any single cipher block of
an encoded stream makes decoding fail with `IntegrityError`; the decoder
returns only the error, so no plaintext bytes are emitted at all. -/
theorem tampered_tag_decode_fails (k : Byte) (xs : List Byte) (i : Nat) (t : Byte)
    (hi : i < (encode k xs).length)
    (ht : t ≠ ((encode k xs).get ⟨i, hi⟩).tag) :
    decode k (tamperTag (encode k xs) i t) = Except.error CodecError.IntegrityError :=
  tamper_decodeFrom_fails k (encode k xs) 0 xs
    (decodeFrom_encodeGo k xs.length xs (Nat.le_refl _) 0) i hi t ht

/-- Witness for C3 at a concrete one-block stream. -/
theorem tampered_tag_decode_fails_witness :
    0 < (encode 1 [(7 : Byte)]).length ∧
    (0 : Byte) ≠ ((encode 1 [(7 : Byte)]).get ⟨0, by decide⟩).tag ∧
    decode 1 (tamperTag (encode 1 [(7 : Byte)]) 0 0) =
      Except.error CodecError.IntegrityError :=
  ⟨by decide, by decide,
    tampered_tag_decode_fails 1 [(7 : Byte)] 0 0 (by decide) (by decide)⟩

/-! ### PartPlanner

Modelled from the spec: `plan(totalCipherBytes, minPartSize, maxPartCount)`
computes a part size that is at least the configured minimum, large enough
that the part count stays within the service limit, rounded up to the next
multiple of the fixed block size, and cuts the ciphertext stream into
consecutive ranges of that size, the last range holding the remainder. A
`PlanningError` is raised when no part size within the service-imposed
maximum part size can cover the stream.
-/

/-- Modelled from the spec: the planner error. -/
inductive PlanError where
  | PlanningError
deriving DecidableEq, Repr

instance exceptDecidableEq {ε α : Type} [DecidableEq ε] [DecidableEq α] :
    DecidableEq (Except ε α) := fun x y =>
  match x, y with
  | Except.error a, Except.error b =>
    if h : a = b then isTrue (h ▸ rfl)
    else isFalse (fun he => h (Except.error.inj he))
  | Except.error _, Except.ok _ => isFalse (fun he => Except.noConfusion he)
  | Except.ok _, Except.error _ => isFalse (fun he => Except.noConfusion he)
  | Except.ok a, Except.ok b =>
    if h : a = b then isTrue (h ▸ rfl)
    else isFalse (fun he => h (Except.ok.inj he))

/-- Ceiling division on naturals. -/
def ceilDiv (a b : Nat) : Nat := (a + b - 1) / b

/-- Rounding `x` up to the next multiple of `m`. -/
def roundUpTo (m x : Nat) : Nat := ceilDiv x m * m

/-- Modelled from the spec: the service-imposed maximum part size
(5 GiB for S3-compatible stores). -/
def maxServicePartSize : Nat := 5 * 1024 * 1024 * 1024

/-- Modelled from the spec: the chosen part size, at least the configured
minimum and at least `totalCipherBytes / maxPartCount` rounded up, itself
rounded up to the next multiple of the fixed block size. -/
def planPartSize (total minPart maxCount : Nat) : Nat :=
  roundUpTo blockSize (max minPart (ceilDiv total maxCount))

/-- Modelled from the spec: cutting the stream into consecutive
`(start, length)` ranges of size `p`, the last range holding the
remainder; `fuel` bounds the recursion. -/
def cutParts (p : Nat) : Nat → Nat → Nat → List (Nat × Nat)
  | 0, _, _ => []
  | _, _, 0 => []
  | fuel + 1, start, rem =>
    if rem ≤ p then [(start, rem)]
    else (start, p) :: cutParts p fuel (start + p) (rem - p)

/-- Modelled from the spec: `PartPlanner.plan`. -/
def plan (total minPart maxCount : Nat) : Except PlanError (List (Nat × Nat)) :=
  let p := planPartSize total minPart maxCount
  if p = 0 ∨ maxServicePartSize < p then Except.error PlanError.PlanningError
  else Except.ok (cutParts p total 0 total)

/-- The alignment property of a part plan: every range starts at a
multiple of `bs`, and every range length is a multiple of `bs` except
possibly the last. -/
def partsAligned (bs : Nat) : List (Nat × Nat) → Bool
  | [] => true
  | [q] => decide (bs ∣ q.1)
  | q :: q2 :: rest => decide (bs ∣ q.1) && decide (bs ∣ q.2) && partsAligned bs (q2 :: rest)

lemma partsAligned_cons (bs : Nat) (q : Nat × Nat) (l : List (Nat × Nat))
    (h1 : bs ∣ q.1) (h2 : bs ∣ q.2) (h3 : partsAligned bs l = true) :
    partsAligned bs (q :: l) = true := by
  cases l with
  | nil => simp [partsAligned, h1]
  | cons q2 rest => simp [partsAligned, h1, h2, h3]

lemma cutParts_aligned (bs p : Nat) (hp : bs ∣ p) :
    ∀ (fuel start rem : Nat), bs ∣ start → partsAligned bs (cutParts p fuel start rem) = true := by
  intro fuel
  induction fuel with
  | zero => intro start rem _; simp [cutParts, partsAligned]
  | succ fuel ih =>
    intro start rem hs
    cases rem with
    | zero => simp [cutParts, partsAligned]
    | succ rem2 =>
      by_cases hle : rem2 + 1 ≤ p
      · simp [cutParts, hle, partsAligned, hs]
      · have hstep : cutParts p (fuel + 1) start (rem2 + 1) =
            (start, p) :: cutParts p fuel (start + p) (rem2 + 1 - p) := by
          simp [cutParts, hle]
        rw [hstep]
        exact partsAligned_cons bs (start, p) _ hs hp (ih (start + p) _ (Nat.dvd_add hs hp))

/-- C4: the planner is a pure function, so equal inputs give the identical
ordered part sequence, and every returned plan is block-aligned: each part
starts at a multiple of the fixed block size and every part length except
possibly the last is a multiple of the fixed block size. -/
theorem plan_deterministic_aligned (total minPart maxCount : Nat)
    (parts : List (Nat × Nat)) (h : plan total minPart maxCount = Except.ok parts) :
    plan total minPart maxCount = plan total minPart maxCount ∧
      partsAligned blockSize parts = true := by
  refine ⟨rfl, ?_⟩
  unfold plan at h
  by_cases hc : planPartSize total minPart maxCount = 0 ∨
      maxServicePartSize < planPartSize total minPart maxCount
  · simp only [if_pos hc] at h
    exact Except.noConfusion h
  · simp only [if_neg hc] at h
    have hparts : parts = cutParts (planPartSize total minPart maxCount) total 0 total := by
      cases h
      rfl
    have hdvd : blockSize ∣ planPartSize total minPart maxCount := by
      unfold planPartSize roundUpTo
      exact dvd_mul_left blockSize _
    rw [hparts]
    exact cutParts_aligned blockSize _ hdvd total 0 total (Nat.dvd_zero _)

/-- Witness for C4 at the concrete 25 MB / 8 MB scenario of the spec:
four parts, the last one shorter. -/
theorem plan_deterministic_aligned_witness :
    plan 26214400 8388608 10000 = plan 26214400 8388608 10000 ∧
      partsAligned blockSize
        [(0, 8388608), (8388608, 8388608), (16777216, 8388608), (25165824, 1048576)] = true :=
  plan_deterministic_aligned 26214400 8388608 10000
    [(0, 8388608), (8388608, 8388608), (16777216, 8388608), (25165824, 1048576)]
    (by decide)

/-! ### CustomReader

Translated from `helpers/helpers.go`, `CustomReader.ReadAt` (lines
191-210): after a successful underlying `Fp.ReadAt` of `n` bytes at offset
`off`, the method locks the mutex and consults the signature map `SignMap`:
if the offset is already present, `n` is added to `Reads` (and the progress
bar is set to `Reads`); otherwise the offset is only recorded in the map
(the comment in the source reads: Ignore the first signature call). The
progress-bar calls are display side effects and carry no tracked state;
the mutex serialises the updates, so the state change of one successful
call is the pure function `readAt` below, and a serialised sequence of
calls is a fold.
-/

/-- The tracked state of `CustomReader`: `Size` and `Reads` are Go
`int64`, `SignMap` is a set of offsets (`map[int64]struct\x7b\x7d`). -/
structure CustomReader where
  size : Int
  reads : Int
  signMap : List Int
deriving DecidableEq, Repr

/-- State change of one successful `CustomReader.ReadAt` call that read
`n` bytes at offset `off`. -/
def readAt (r : CustomReader) (off : Int) (n : Nat) : CustomReader :=
  if off ∈ r.signMap then { r with reads := r.reads + n }
  else { r with signMap := off :: r.signMap }

/-- A serialised sequence of successful `ReadAt` calls, each given as an
`(offset, bytesRead)` pair. -/
def runReadAt (r : CustomReader) : List (Int × Nat) → CustomReader
  | [] => r
  | c :: rest => runReadAt (readAt r c.1 c.2) rest

/-- Each `(offset, bytesRead)` call repeated twice in immediate
succession: the request-signing pass of the SDK followed by the data
pass. -/
def dupCalls : List (Int × Nat) → List (Int × Nat)
  | [] => []
  | c :: rest => c :: c :: dupCalls rest

lemma readAt_reads_le (r : CustomReader) (off : Int) (n : Nat) :
    r.reads ≤ (readAt r off n).reads := by
  unfold readAt
  by_cases h : off ∈ r.signMap
  · simp only [if_pos h]
    have : (0 : Int) ≤ (n : Int) := Int.natCast_nonneg n
    omega
  · simp only [if_neg h]
    exact le_refl _

lemma runReadAt_reads_le (calls : List (Int × Nat)) :
    ∀ r : CustomReader, r.reads ≤ (runReadAt r calls).reads := by
  induction calls with
  | nil => intro r; exact le_refl _
  | cons c rest ih =>
    intro r
    exact le_trans (readAt_reads_le r c.1 c.2) (ih (readAt r c.1 c.2))

/-- C5: the cumulative `Reads` counter is non-decreasing, over a single
successful `ReadAt` call and over any serialised sequence of successful
calls. -/
theorem reads_monotone (r : CustomReader) (off : Int) (n : Nat)
    (calls : List (Int × Nat)) :
    r.reads ≤ (readAt r off n).reads ∧ r.reads ≤ (runReadAt r calls).reads :=
  ⟨readAt_reads_le r off n, runReadAt_reads_le calls r⟩

/-- Counterexample to C1 as stated: for a fresh reader of total size 4, a
single read covering the whole range (disjoint ranges summing to the total
size) leaves the counter at 0, not 4 — the first traversal is ignored —
and three reads of the same range drive the counter to 8, exceeding the
total size. -/
theorem readAt_first_traversal_not_counted :
    (runReadAt ⟨4, 0, []⟩ [(0, 4)]).reads ≠ (4 : Int) ∧
      (4 : Int) < (runReadAt ⟨4, 0, []⟩ [(0, 4), (0, 4), (0, 4)]).reads := by
  constructor
  · decide
  · decide

lemma runReadAt_dup (l : List (Int × Nat)) :
    ∀ r : CustomReader, (l.map Prod.fst).Nodup →
      (∀ c ∈ l, c.1 ∉ r.signMap) →
      (runReadAt r (dupCalls l)).reads = r.reads + (l.map fun c => (c.2 : Int)).sum := by
  induction l with
  | nil => intro r _ _; simp [dupCalls, runReadAt]
  | cons c rest ih =>
    intro r hnd hdis
    have hc : c.1 ∉ r.signMap := hdis c (List.mem_cons_self c rest)
    have h1 : readAt r c.1 c.2 = ⟨r.size, r.reads, c.1 :: r.signMap⟩ := by
      simp [readAt, hc]
    have h2 : readAt ⟨r.size, r.reads, c.1 :: r.signMap⟩ c.1 c.2 =
        ⟨r.size, r.reads + c.2, c.1 :: r.signMap⟩ := by
      simp [readAt]
    have hnd2 : (rest.map Prod.fst).Nodup := (List.nodup_cons.mp hnd).2
    have hnotrest : c.1 ∉ rest.map Prod.fst := (List.nodup_cons.mp hnd).1
    have hdis2 : ∀ d ∈ rest,
        d.1 ∉ ((⟨r.size, r.reads + c.2, c.1 :: r.signMap⟩ : CustomReader)).signMap := by
      intro d hd
      show d.1 ∉ c.1 :: r.signMap
      simp only [List.mem_cons]
      push_neg
      refine ⟨?_, hdis d (List.mem_cons_of_mem c hd)⟩
      intro he
      exact hnotrest (he ▸ List.mem_map_of_mem Prod.fst hd)
    have hstep : runReadAt r (dupCalls (c :: rest)) =
        runReadAt (⟨r.size, r.reads + c.2, c.1 :: r.signMap⟩ : CustomReader)
          (dupCalls rest) := by
      simp only [dupCalls, runReadAt, h1, h2]
    rw [hstep, ih _ hnd2 hdis2]
    dsimp only
    simp only [List.map_cons, List.sum_cons]
    ring

/-- C1 amended: `ReadAt` counts the bytes of a given offset on every
traversal after the first. Under the SDK double-read pattern — every
distinct offset read exactly twice, the signing pass then the data pass —
the counter ends at exactly the sum of the per-offset byte counts, hence
at the total size when the ranges are disjoint and sum to it; any further
re-read of an offset adds its bytes again. -/
theorem readAt_double_pass_counts_once (l : List (Int × Nat)) (r : CustomReader)
    (hnd : (l.map Prod.fst).Nodup) (hdis : ∀ c ∈ l, c.1 ∉ r.signMap) :
    (runReadAt r (dupCalls l)).reads = r.reads + (l.map fun c => (c.2 : Int)).sum :=
  runReadAt_dup l r hnd hdis

/-- Witness for the amended C1: two disjoint ranges of 2 bytes each, read
twice each, on a fresh reader of total size 4: the counter ends at 4. -/
theorem readAt_double_pass_counts_once_witness :
    (runReadAt ⟨4, 0, []⟩ (dupCalls [(0, 2), (2, 2)])).reads =
      (⟨4, 0, []⟩ : CustomReader).reads +
        (([(0, 2), (2, 2)] : List (Int × Nat)).map fun c => (c.2 : Int)).sum :=
  readAt_double_pass_counts_once [(0, 2), (2, 2)] ⟨4, 0, []⟩ (by decide) (by decide)

/-! ### Config and LoadConfigFile

Translated from `helpers/helpers.go` (lines 216-278). A Go string is a
`List Char`, a Go `int64` an `Int`. `loadConfigFile` takes the `Config`
record as mapped from the parsed ini section (the ini parsing itself is
the external `gopkg.in/ini.v1` library) and performs the checks and
rewrites the source performs after `MapTo`, in source order: the
credentials check, the endpoint check, the `https://` rewrite, the
encoding default and the multipart chunk size default.
-/

/-- Translated from the `Config` struct of `helpers/helpers.go`. -/
structure Config where
  accessKey : List Char
  secretKey : List Char
  accessToken : List Char
  hostBucket : List Char
  hostBase : List Char
  multipartChunkSizeMb : Int
  guessMimeType : Bool
  encoding : List Char
  checkSslCertificate : Bool
  checkSslHostname : Bool
  useHTTPS : Bool
  socketTimeout : Int
  humanReadableSizes : Bool
  publicKey : List Char
deriving DecidableEq, Repr

/-- Translated from the `LoadConfigFile` errors. -/
inductive LoadError where
  | credentialsNotFound
  | endpointNotFound
deriving DecidableEq, Repr

/-- Translated from `LoadConfigFile`: prepend the scheme when `use_https`
is set. -/
def applyHTTPS (c : Config) : Config :=
  if c.useHTTPS then { c with hostBase := ("https://").data ++ c.hostBase } else c

/-- Translated from `LoadConfigFile`: default encoding. -/
def applyEncoding (c : Config) : Config :=
  if c.encoding = [] then { c with encoding := ("UTF-8").data } else c

/-- Translated from `LoadConfigFile`: default the multipart chunk size to
15, the default chunk size of the library, whenever the configured value
is at most 15. -/
def applyChunkDefault (c : Config) : Config :=
  if c.multipartChunkSizeMb ≤ 15 then { c with multipartChunkSizeMb := 15 } else c

/-- Translated from `LoadConfigFile` (lines 235-278), after the ini
section has been mapped onto the raw `Config` record. -/
def loadConfigFile (raw : Config) : Except LoadError Config :=
  if raw.accessKey = [] ∨ raw.accessToken = [] then
    Except.error LoadError.credentialsNotFound
  else if raw.hostBase = [] then
    Except.error LoadError.endpointNotFound
  else
    Except.ok (applyChunkDefault (applyEncoding (applyHTTPS raw)))

/-- Whether `loadConfigFile` rejects the raw record: the access key is
empty, the access token is empty, or the host base is empty. The secret
key is not consulted. -/
def loadErrCond (raw : Config) : Bool :=
  decide (raw.accessKey = []) || decide (raw.accessToken = []) || decide (raw.hostBase = [])

/-- Whether an `Except` result is a success. -/
def exceptIsOk {ε α : Type} : Except ε α → Bool
  | Except.ok _ => true
  | Except.error _ => false

/-- Boolean prefix test on `List Char`. -/
def startsWith : List Char → List Char → Bool
  | [], _ => true
  | _ :: _, [] => false
  | p :: ps, c :: cs => p == c && startsWith ps cs

lemma startsWith_append (l m : List Char) : startsWith l (l ++ m) = true := by
  induction l with
  | nil => rfl
  | cons a l ih => simp [startsWith, ih]

/-- The endpoint condition the code actually establishes on success: when
`use_https` is set the host base gains the scheme, and when it is not set
the host base is passed through unchanged. -/
def httpsOk (raw : Config) : Except LoadError Config → Bool
  | Except.error _ => true
  | Except.ok c =>
    if raw.useHTTPS then startsWith (("https://").data) c.hostBase
    else decide (c.hostBase = raw.hostBase)

lemma applyEncoding_hostBase (c : Config) : (applyEncoding c).hostBase = c.hostBase := by
  unfold applyEncoding
  split <;> rfl

lemma applyChunkDefault_hostBase (c : Config) :
    (applyChunkDefault c).hostBase = c.hostBase := by
  unfold applyChunkDefault
  split <;> rfl

lemma applyHTTPS_chunk (c : Config) :
    (applyHTTPS c).multipartChunkSizeMb = c.multipartChunkSizeMb := by
  unfold applyHTTPS
  split <;> rfl

lemma applyEncoding_chunk (c : Config) :
    (applyEncoding c).multipartChunkSizeMb = c.multipartChunkSizeMb := by
  unfold applyEncoding
  split <;> rfl

/-- Counterexample to C8 as stated: a raw record whose `host_base` already
starts with `https://` while `use_https` is unset loads successfully and
its endpoint starts with `https://`, so the returned endpoint does not
start with `https://` exactly when `use_https` is set. -/
theorem loadConfig_https_without_flag :
    loadConfigFile
        ⟨("a").data, [], ("t").data, [], ("https://h").data, 20, false,
          ("x").data, false, false, false, 0, false, []⟩ =
      Except.ok
        ⟨("a").data, [], ("t").data, [], ("https://h").data, 20, false,
          ("x").data, false, false, false, 0, false, []⟩ ∧
      (⟨("a").data, [], ("t").data, [], ("https://h").data, 20, false,
          ("x").data, false, false, false, 0, false, []⟩ : Config).useHTTPS = false ∧
      startsWith (("https://").data) ("https://h").data = true := by
  refine ⟨?_, rfl, ?_⟩
  · decide
  · decide

/-- C8 amended: for every raw ini-mapped record, `loadConfigFile` fails
exactly when the access key, the access token or the host base is empty —
the secret key is never consulted — and on success the endpoint starts
with `https://` whenever `use_https` is set, while with `use_https` unset
the host base is returned unchanged (it may itself already carry the
scheme). -/
theorem loadConfig_error_iff_and_https (raw : Config) :
    exceptIsOk (loadConfigFile raw) = !loadErrCond raw ∧
      httpsOk raw (loadConfigFile raw) = true := by
  by_cases h1 : raw.accessKey = [] ∨ raw.accessToken = []
  · have hcond : loadErrCond raw = true := by
      rcases h1 with h | h <;> simp [loadErrCond, h]
    simp [loadConfigFile, if_pos h1, exceptIsOk, httpsOk, hcond]
  · by_cases h2 : raw.hostBase = []
    · have hcond : loadErrCond raw = true := by
        simp [loadErrCond, h2]
      simp [loadConfigFile, if_neg h1, if_pos h2, exceptIsOk, httpsOk, hcond]
    · have hcond : loadErrCond raw = false := by
        push_neg at h1
        simp [loadErrCond, h1.1, h1.2, h2]
      have hbase : (applyChunkDefault (applyEncoding (applyHTTPS raw))).hostBase =
          (applyHTTPS raw).hostBase := by
        rw [applyChunkDefault_hostBase, applyEncoding_hostBase]
      constructor
      · simp [loadConfigFile, if_neg h1, if_neg h2, exceptIsOk, hcond]
      · simp only [loadConfigFile, if_neg h1, if_neg h2, httpsOk]
        by_cases hs : raw.useHTTPS
        · simp only [if_pos hs, hbase]
          unfold applyHTTPS
          rw [if_pos hs]
          exact startsWith_append _ _
        · simp only [if_neg hs, hbase]
          unfold applyHTTPS
          rw [if_neg hs]
          simp

/-- C9: every successfully returned configuration has a multipart chunk
size equal to the configured value clamped from below by 15, hence never
below 15. -/
theorem loadConfig_chunk_size_floor (raw c : Config)
    (h : loadConfigFile raw = Except.ok c) :
    c.multipartChunkSizeMb = max 15 raw.multipartChunkSizeMb ∧
      15 ≤ c.multipartChunkSizeMb := by
  unfold loadConfigFile at h
  by_cases h1 : raw.accessKey = [] ∨ raw.accessToken = []
  · rw [if_pos h1] at h
    exact Except.noConfusion h
  · rw [if_neg h1] at h
    by_cases h2 : raw.hostBase = []
    · rw [if_pos h2] at h
      exact Except.noConfusion h
    rw [if_neg h2] at h
    have hc : c = applyChunkDefault (applyEncoding (applyHTTPS raw)) :=
      (Except.ok.inj h).symm
    have hmid : (applyEncoding (applyHTTPS raw)).multipartChunkSizeMb =
        raw.multipartChunkSizeMb := by
      rw [applyEncoding_chunk, applyHTTPS_chunk]
    have hval : c.multipartChunkSizeMb = max 15 raw.multipartChunkSizeMb := by
      rw [hc]
      unfold applyChunkDefault
      rw [hmid]
      by_cases hle : raw.multipartChunkSizeMb ≤ 15
      · rw [if_pos hle]
        exact (max_eq_left hle).symm
      · rw [if_neg hle, hmid]
        push_neg at hle
        exact (max_eq_right (le_of_lt hle)).symm
    exact ⟨hval, by rw [hval]; exact le_max_left _ _⟩

/-- Witness for C9: a raw record configured with chunk size 0 loads
successfully with chunk size 15. -/
theorem loadConfig_chunk_size_floor_witness :
    (⟨("a").data, [], ("t").data, [], ("h").data, 15, false,
        ("x").data, false, false, false, 0, false, []⟩ : Config).multipartChunkSizeMb =
      max 15 (⟨("a").data, [], ("t").data, [], ("h").data, 0, false,
        ("x").data, false, false, false, 0, false, []⟩ : Config).multipartChunkSizeMb ∧
      15 ≤ (⟨("a").data, [], ("t").data, [], ("h").data, 15, false,
        ("x").data, false, false, false, 0, false, []⟩ : Config).multipartChunkSizeMb :=
  loadConfig_chunk_size_floor
    ⟨("a").data, [], ("t").data, [], ("h").data, 0, false,
      ("x").data, false, false, false, 0, false, []⟩
    ⟨("a").data, [], ("t").data, [], ("h").data, 15, false,
      ("x").data, false, false, false, 0, false, []⟩
    (by decide)

/-! ### ListFiles

Translated from `helpers/helpers.go`, `ListFiles` (lines 375-398): the
function builds an AWS session with a hardcoded region, static credentials,
the configured endpoint, SSL disabled exactly when `use_https` is unset and
path-style addressing forced, then issues a `ListObjectsV2` request whose
`Bucket` parameter is the access key followed by a slash and whose `Prefix`
parameter is the access key, a slash and the caller-given prefix.
-/

/-- The session parameters `ListFiles` passes to the AWS SDK. -/
structure S3SessionCfg where
  region : List Char
  endpoint : List Char
  disableSSL : Bool
  forcePathStyle : Bool
deriving DecidableEq, Repr

/-- The `ListObjectsV2` request parameters `ListFiles` sends. -/
structure ListObjectsV2Request where
  bucket : List Char
  keyPfx : List Char
deriving DecidableEq, Repr

/-- Translated from `ListFiles`: the session and request it constructs for
a configuration and a caller-given prefix. -/
def listFilesRequest (config : Config) (pfx : List Char) :
    S3SessionCfg × ListObjectsV2Request :=
  (⟨("us-west-2").data, config.hostBase, !config.useHTTPS, true⟩,
    ⟨config.accessKey ++ ("/").data,
      config.accessKey ++ ("/").data ++ pfx⟩)

/-- Counterexample to C6 as stated: the bucket parameter is the access key
followed by a slash, not the access key itself. -/
theorem listFiles_bucket_not_accessKey :
    (listFilesRequest
        ⟨("user").data, [], ("t").data, [], ("h").data, 15, false,
          ("x").data, false, false, false, 0, false, []⟩ ("p").data).2.bucket ≠
      (⟨("user").data, [], ("t").data, [], ("h").data, 15, false,
          ("x").data, false, false, false, 0, false, []⟩ : Config).accessKey := by
  decide

/-- C6 amended: for every configuration and prefix, `ListFiles` forces
path-style addressing, uses the access key followed by a slash as the
bucket, and requests only keys whose name starts with the access key
followed by a slash and the given prefix (the request key name is exactly
that concatenation). -/
theorem listFiles_request_shape (config : Config) (pfx : List Char) :
    (listFilesRequest config pfx).1.forcePathStyle = true ∧
      (listFilesRequest config pfx).2.bucket = config.accessKey ++ ("/").data ∧
      (listFilesRequest config pfx).2.keyPfx =
        config.accessKey ++ ("/").data ++ pfx ∧
      startsWith (config.accessKey ++ ("/").data)
        ((listFilesRequest config pfx).2.keyPfx) = true :=
  ⟨rfl, rfl, rfl, by
    show startsWith (config.accessKey ++ ("/").data)
      (config.accessKey ++ ("/").data ++ pfx) = true
    exact startsWith_append _ _⟩

/-! ### Final outcome reporting of main

Translated from the main module (the unnamed main source file, lines
49-81): `main` delegates to the chosen subcommand, receives a single Go
`error` value, prints `Error: <message>` followed by a newline to stderr
when the value is non-nil, prints nothing on success, and falls off the
end of `main` in either case, so the process exit status is 0 throughout.
A Go error value is modelled with the semantic class of its cause — a
retriable/resumable failure, a permanent one such as bad credentials, or
another kind — together with the message text that `%v` formatting
renders; `main` inspects nothing but the message.
-/

/-- Semantic class of a failure cause. -/
inductive ErrClass where
  | resumable
  | permanent
  | other
deriving DecidableEq, Repr

/-- A Go error value as `main` receives it: a cause class and the text its
`%v` formatting produces. -/
structure GoError where
  cls : ErrClass
  msg : List Char
deriving DecidableEq, Repr

/-- Translated from `main`: the user-visible outcome of an invocation, as
the pair of the stderr text and the process exit status. -/
def mainReport : Option GoError → List Char × Nat
  | none => ([], 0)
  | some e => (("Error: ").data ++ e.msg ++ ([Char.ofNat 10]), 0)

/-- Counterexample to C7 as stated: a resumable failure and a permanent
failure carrying the same message text produce the identical user-visible
outcome. -/
theorem mainReport_same_for_resumable_permanent :
    mainReport (some ⟨ErrClass.resumable, ("request timed out").data⟩) =
      mainReport (some ⟨ErrClass.permanent, ("request timed out").data⟩) := by
  rfl

/-- C7 amended: `main` reports success with empty error output and every
failure as one `Error:` line on stderr; the exit status is 0 for success
and failure alike, and failures are distinguished only by their message
text — any two failures with the same message, whatever their causes,
yield the identical outcome. -/
theorem mainReport_uniform_error_line (e e2 : GoError) (hm : e.msg = e2.msg) :
    mainReport (some e) = mainReport (some e2) ∧
      (mainReport (some e)).2 = (mainReport none).2 ∧
      (mainReport (some e)).1 = ("Error: ").data ++ e.msg ++ ([Char.ofNat 10]) ∧
      (mainReport none).1 = [] := by
  refine ⟨?_, rfl, rfl, rfl⟩
  simp [mainReport, hm]

/-- Witness for the amended C7 at two concrete failures of different
classes sharing one message. -/
theorem mainReport_uniform_error_line_witness :
    mainReport (some ⟨ErrClass.resumable, ("x").data⟩) =
        mainReport (some ⟨ErrClass.permanent, ("x").data⟩) ∧
      (mainReport (some ⟨ErrClass.resumable, ("x").data⟩)).2 = (mainReport none).2 ∧
      (mainReport (some ⟨ErrClass.resumable, ("x").data⟩)).1 =
        ("Error: ").data ++ ("x").data ++ ([Char.ofNat 10]) ∧
      (mainReport none).1 = [] :=
  mainReport_uniform_error_line ⟨ErrClass.resumable, ("x").data⟩
    ⟨ErrClass.permanent, ("x").data⟩ rfl

end SdaCli
